import Mathlib

/-!
# Verification of the ternary search trie (`trie.rs`, `trie_node.rs`)

A shallow embedding of the repository's ternary search trie and proofs of the
specified properties.  Byte values (`u8`) are modelled as `Nat` (only `<`, `>`,
`=` comparisons occur, so the 256 bound is irrelevant to every statement here);
the opaque value blobs (`TrieValueType = Rc<Vec<u8>>`) are modelled as
`List Nat`.  The panics in `insert` are modelled as typed errors, following the
spec's error taxonomy.  Rust's `(tokens, offset)` slice-plus-cursor pair is
represented by the remaining suffix `tokens[offset..]`: `tokens[offset]` is the
head of the remainder and `(offset + 1) == tokens.len()` holds exactly when the
tail of the remainder is empty.  Where an algorithm reports `offset` itself
(`longest_match`), the consumed count is threaded as an explicit argument.
-/

set_option maxHeartbeats 1000000

namespace TernaryTrie

/-- Byte values (`u8`); comparisons in the source are plain numeric order. -/
abbrev Byte := Nat

/-- `TrieValueType = Rc<Vec<u8>>` (trie_node.rs line 8): an opaque byte blob. -/
abbrev Value := List Nat

/-- `TrieNode` (trie_node.rs lines 10-20): three optional children, an optional
value, a one-byte key, and the `uses` telemetry counter. -/
inductive TrieNode where
  | mk (left : Option TrieNode) (middle : Option TrieNode) (right : Option TrieNode)
      (value : Option Value) (key : Byte) (uses : Nat)

/-- Field accessor for `left`. -/
def TrieNode.left : TrieNode → Option TrieNode
  | .mk l _ _ _ _ _ => l

/-- Field accessor for `middle`. -/
def TrieNode.middle : TrieNode → Option TrieNode
  | .mk _ m _ _ _ _ => m

/-- Field accessor for `right`. -/
def TrieNode.right : TrieNode → Option TrieNode
  | .mk _ _ r _ _ _ => r

/-- Field accessor for `value`. -/
def TrieNode.value : TrieNode → Option Value
  | .mk _ _ _ v _ _ => v

/-- Field accessor for `key`. -/
def TrieNode.key : TrieNode → Byte
  | .mk _ _ _ _ k _ => k

/-- Field accessor for `uses`. -/
def TrieNode.uses : TrieNode → Nat
  | .mk _ _ _ _ _ u => u

/-- `TrieNode::new` (trie_node.rs lines 33-42): fresh node, no children,
`uses` starts at 0. -/
def TrieNode.new (key : Byte) (value : Option Value) : TrieNode :=
  .mk none none none value key 0

/-- The cell with its `uses` counter incremented (`uses += 1`). -/
def TrieNode.bumpUses : TrieNode → TrieNode
  | .mk l m r v k u => .mk l m r v k (u + 1)

/-- The error conditions of `insert`, surfaced as panics in the source and as a
typed error taxonomy in the spec (section 7):
`invalidArgument` is the failed assertion on an empty token slice
(trie.rs line 50); `duplicateKey` is the panic for an already-occupied value
cell (trie.rs line 76); `indexPanic` stands for the out-of-bounds index
`tokens[offset]` and the unreachable None-node panic (trie.rs lines 57, 62),
which no call path from the public API can trigger. -/
inductive TrieError where
  | invalidArgument
  | duplicateKey
  | indexPanic
deriving DecidableEq

/-- `Trie` (trie.rs lines 14-17): optional root cell and the key count. -/
structure Trie where
  root : Option TrieNode
  size : Nat

/-- `Trie::new` (trie.rs lines 34-36). -/
def Trie.new : Trie := { root := none, size := 0 }

/-- `Trie::len` (trie.rs lines 38-40). -/
def Trie.len (t : Trie) : Nat := t.size

/-- `Trie::is_empty` (trie.rs lines 42-44). -/
def Trie.isEmpty (t : Trie) : Bool := t.size == 0

/-- The subtree built when `recursive_insert` descends into a child just
created by `allocate_if!` with the previous byte as its key (trie.rs lines
79-81): the middle child of a cell for byte `k` is allocated with key `k`
itself (`allocate_if!(inner.middle, key)` uses the current byte), and the
insertion of the remaining bytes `rest` continues inside it at the next
offset.  A freshly created cell has no children, so each recursive step on
fresh cells is fully determined: compare the next byte `r` with `k`; on `<`
(resp. `>`) a left (resp. right) child is allocated with key `r` and, since
that child's key now equals the byte being inserted, the equal branch of
trie.rs lines 71-82 runs on it; on `=` the equal branch runs on the cell with
key `k` directly.  The equal branch on a fresh cell stores the value if `rest`
is the last byte, otherwise allocates a fresh middle child (key = current
byte) and recurses.  This definition is that unfolding; `[]` is unreachable
because `recursive_insert` is only ever called with `offset < tokens.len()`. -/
def freshMiddle : Byte → List Byte → Value → TrieNode
  | k, [], _ => TrieNode.new k none
  | k, r :: rs, v =>
    let child : TrieNode :=
      match rs with
      | [] => TrieNode.new r (some v)
      | _ :: _ => .mk none (some (freshMiddle r rs v)) none none r 0
    if r < k then .mk (some child) none none none k 0
    else if k < r then .mk none none (some child) none k 0
    else child

/-- The subtree built by `recursive_insert` for token suffix `tokens` inside a
cell that `allocate_if!` created with key `tokens[0]` (trie.rs lines 51, 66,
69): the equal branch runs at once, storing the value if a single byte
remains and otherwise allocating a middle child with the current byte as key
(see `freshMiddle`).  `[]` is unreachable (`insert` asserts non-emptiness). -/
def freshSpine : List Byte → Value → TrieNode
  | [], v => TrieNode.new 0 (some v)
  | [t], v => TrieNode.new t (some v)
  | t :: r :: rs, v => .mk none (some (freshMiddle t (r :: rs) v)) none none t 0

/-- `Trie::recursive_insert` (trie.rs lines 56-84), on the remaining token
suffix.  The source passes `Option<&mut TrieNodeType>` that is always `Some`
(each call site runs `allocate_if!` first); here the two `allocate_if!`-plus-
recurse steps on a missing child appear as the `none` child cases, whose
result is the fully determined fresh subtree (`freshSpine` / `freshMiddle`).
An empty suffix would index out of bounds in the source (`tokens[offset]`)
and is represented by `indexPanic`; no caller reaches it. -/
def recursive_insert : TrieNode → List Byte → Value → Except TrieError TrieNode
  | _, [], _ => .error .indexPanic
  | .mk l m r v0 k0 u, key :: rest, v =>
    if key < k0 then
      match l with
      | some ln => (recursive_insert ln (key :: rest) v).map fun ln' => .mk (some ln') m r v0 k0 u
      | none => .ok (.mk (some (freshSpine (key :: rest) v)) m r v0 k0 u)
    else if k0 < key then
      match r with
      | some rn => (recursive_insert rn (key :: rest) v).map fun rn' => .mk l m (some rn') v0 k0 u
      | none => .ok (.mk l m (some (freshSpine (key :: rest) v)) v0 k0 u)
    else
      match rest with
      | [] =>
        match v0 with
        | some _ => .error .duplicateKey
        | none => .ok (.mk l m r (some v) k0 u)
      | _ :: _ =>
        match m with
        | some mn => (recursive_insert mn rest v).map fun mn' => .mk l (some mn') r v0 k0 u
        | none => .ok (.mk l (some (freshMiddle k0 rest v)) r v0 k0 u)

/-- `Trie::insert` (trie.rs lines 49-54): assert non-empty tokens, allocate the
root with key `tokens[0]` if absent, run `recursive_insert` from offset 0, and
only then increment `size`. -/
def Trie.insert (t : Trie) (tokens : List Byte) (v : Value) : Except TrieError Trie :=
  match tokens with
  | [] => .error .invalidArgument
  | k :: _ =>
    let root :=
      match t.root with
      | some r => r
      | none => TrieNode.new k none
    match recursive_insert root tokens v with
    | .ok root' => .ok { root := some root', size := t.size + 1 }
    | .error e => .error e

/-- The value of `size` observed after a call to `insert`, including a call
that panics: `self.size += 1` (trie.rs line 53) runs only after
`recursive_insert` returns normally, so a panicking call leaves `size` at its
old value. -/
def Trie.lenAfterInsert (t : Trie) (tokens : List Byte) (v : Value) : Nat :=
  match t.insert tokens v with
  | .ok t' => t'.len
  | .error _ => t.len

/-- The state effect of the loop of `Trie::search` (trie.rs lines 88-112) on
the remaining token suffix: the subtree after the call.  The loop walks `&mut`
references; its only write is `box_node.uses += 1` at line 105, performed when
the walk consumes the final byte through the equal branch — whether or not a
value is present at that cell.  Every other cell is passed through untouched.
An exhausted suffix means the `while offset < tokens.len()` condition fails
and the loop exits without writing (line 111). -/
def searchPost : Option TrieNode → List Byte → Option TrieNode
  | node, [] => node
  | none, _ :: _ => none
  | some (.mk l m r v k u), key :: rest =>
    if key < k then some (.mk (searchPost l (key :: rest)) m r v k u)
    else if k < key then some (.mk l m (searchPost r (key :: rest)) v k u)
    else
      match rest with
      | [] => some (.mk l m r v k (u + 1))
      | _ :: _ => some (.mk l (searchPost m rest) r v k u)

/-- The value returned by the loop of `Trie::search` (trie.rs lines 88-112) on
the remaining token suffix: at each cell, descend left or right without
consuming a byte, or consume the byte on an equal key; when the final byte is
consumed through the equal branch, return `value.clone()` of that cell (line
106) — which is `None` when the cell holds no value; a missing child (line
93) or an exhausted suffix (line 111) returns `None`. -/
def lookupGo : Option TrieNode → List Byte → Option Value
  | _, [] => none
  | none, _ :: _ => none
  | some (.mk l m r v k _), key :: rest =>
    if key < k then lookupGo l (key :: rest)
    else if k < key then lookupGo r (key :: rest)
    else
      match rest with
      | [] => v
      | _ :: _ => lookupGo m rest

/-- `Trie::search` (trie.rs lines 88-112): the returned value and the trie
after the call (`&mut self`).  The single loop of the source is embedded as
its value projection (`lookupGo`) paired with its state effect
(`searchPost`); both follow the loop branch for branch. -/
def Trie.search (t : Trie) (tokens : List Byte) : Option Value × Trie :=
  (lookupGo t.root tokens, { t with root := searchPost t.root tokens })

/-- The trie after `n` consecutive `search` calls with the same tokens. -/
def searchIter (t : Trie) (tokens : List Byte) : Nat → Trie
  | 0 => t
  | n + 1 => ((searchIter t tokens n).search tokens).2

/-- The value returned by the loop of `Trie::longest_match` (trie.rs lines
118-155) on the remaining token suffix, carrying the consumed-byte count
(`offset`) and the current best candidate (the source's `longest_match`
local).  On the equal branch the offset advances first (line 140) and a
present value is recorded as the new best with the advanced offset (lines
141-146); falling off the tree (line 125) or exhausting the input (line 124)
returns the current best (lines 129, 154). -/
def lmValue : Option TrieNode → List Byte → Nat → Option (Value × Nat) → Option (Value × Nat)
  | _, [], _, best => best
  | none, _ :: _, _, best => best
  | some (.mk l m r v k _), key :: rest, offset, best =>
    if key < k then lmValue l (key :: rest) offset best
    else if k < key then lmValue r (key :: rest) offset best
    else
      let best' :=
        match v with
        | some w => some (w, offset + 1)
        | none => best
      lmValue m rest (offset + 1) best'

/-- The state effect of the loop of `Trie::longest_match` (trie.rs lines
118-155) on the remaining token suffix: the subtree after the call.  The walk
holds only shared (`&`) references (the method takes `&self`), so no branch
can alter a cell; each cell is passed through as the walk saw it.  Embedding
the pass-through explicitly makes "the trie is unchanged" a provable
statement rather than an artifact of the model. -/
def lmPost : Option TrieNode → List Byte → Option TrieNode
  | node, [] => node
  | none, _ :: _ => none
  | some (.mk l m r v k u), key :: rest =>
    if key < k then some (.mk (lmPost l (key :: rest)) m r v k u)
    else if k < key then some (.mk l m (lmPost r (key :: rest)) v k u)
    else some (.mk l (lmPost m rest) r v k u)

/-- The final value of the local `longest_node` binding of `longest_match`
(trie.rs lines 120, 145): a deep copy (`node.clone()`) of the last
value-bearing cell visited on the walk, or `None` when no such cell was
visited. -/
def lmClone : Option TrieNode → List Byte → Option TrieNode → Option TrieNode
  | _, [], acc => acc
  | none, _ :: _, acc => acc
  | some (.mk l m r v k u), key :: rest, acc =>
    if key < k then lmClone l (key :: rest) acc
    else if k < key then lmClone r (key :: rest) acc
    else
      let acc' :=
        match v with
        | some _ => some (.mk l m r v k u)
        | none => acc
      lmClone m rest acc'

/-- `Trie::longest_match` (trie.rs lines 118-155), with the trie after the call
(`&self`: the source cannot write through the shared borrow).  The
`longest_node.uses += 1` at lines 126-128 and 151-153 mutates the local deep
clone (`_dropped` below, see `lmClone`), which goes out of scope immediately
and is never written back. -/
def Trie.longestMatchFull (t : Trie) (tokens : List Byte) : Option (Value × Nat) × Trie :=
  let _dropped : Option TrieNode := (lmClone t.root tokens none).map TrieNode.bumpUses
  (lmValue t.root tokens 0 none, { t with root := lmPost t.root tokens })

/-- The value returned by `Trie::longest_match`. -/
def Trie.longest_match (t : Trie) (tokens : List Byte) : Option (Value × Nat) :=
  (t.longestMatchFull tokens).1

/-- A direction taken at one cell of a walk: which child pointer is followed. -/
inductive Dir where
  | left
  | middle
  | right
deriving DecidableEq

/-- The cell reached from `node` by following a list of directions. -/
def getNode : Option TrieNode → List Dir → Option TrieNode
  | node, [] => node
  | none, _ :: _ => none
  | some (.mk l m r _ _ _), d :: ds =>
    match d with
    | .left => getNode l ds
    | .middle => getNode m ds
    | .right => getNode r ds

/-- The path of the cell on which the walk of `tokens` lands: the cell reached
when every byte of `tokens` has been consumed through a final equal step.
`none` when the walk falls off the tree or `tokens` is exhausted mid-edge
(in particular for empty `tokens`). -/
def walkPath : Option TrieNode → List Byte → Option (List Dir)
  | _, [] => none
  | none, _ :: _ => none
  | some (.mk l m r _ k _), key :: rest =>
    if key < k then (walkPath l (key :: rest)).map (Dir.left :: ·)
    else if k < key then (walkPath r (key :: rest)).map (Dir.right :: ·)
    else
      match rest with
      | [] => some []
      | _ :: _ => (walkPath m rest).map (Dir.middle :: ·)

/-- The tree with the `uses` counter of the cell at path `p` incremented and
everything else unchanged. -/
def bumpAt : Option TrieNode → List Dir → Option TrieNode
  | none, _ => none
  | some n, [] => some n.bumpUses
  | some (.mk l m r v k u), d :: ds =>
    match d with
    | .left => some (.mk (bumpAt l ds) m r v k u)
    | .middle => some (.mk l (bumpAt m ds) r v k u)
    | .right => some (.mk l m (bumpAt r ds) v k u)

/-- The `uses` counter of the cell at path `p`, if such a cell exists. -/
def usesAt (t : Trie) (p : List Dir) : Option Nat :=
  (getNode t.root p).map TrieNode.uses

/-- The tree with every `uses` counter reset to 0: the part of the state that
`search` can never alter. -/
def stripUses : Option TrieNode → Option TrieNode
  | none => none
  | some (.mk l m r v k _) => some (.mk (stripUses l) (stripUses m) (stripUses r) v k 0)

/-- The candidates recorded along the walk of `longest_match` (trie.rs lines
141-146): each value-bearing cell passed through the equal branch contributes
its value paired with the offset after consuming that cell's byte, in walk
order. -/
def lmRecords : Option TrieNode → List Byte → Nat → List (Value × Nat)
  | _, [], _ => []
  | none, _ :: _, _ => []
  | some (.mk l m r v k _), key :: rest, offset =>
    if key < k then lmRecords l (key :: rest) offset
    else if k < key then lmRecords r (key :: rest) offset
    else
      (match v with
        | some w => [(w, offset + 1)]
        | none => []) ++ lmRecords m rest (offset + 1)

/-- The last element of a list, or a default candidate when the list is empty
("last recorded wins"). -/
def lastOr {α : Type} : List α → Option α → Option α
  | [], b => b
  | x :: xs, _ => lastOr xs (some x)

/-- The number of cells of the tree whose `value` is present. -/
def countValues : Option TrieNode → Nat
  | none => 0
  | some (.mk l m r v _ _) =>
    (if v.isSome then 1 else 0) + countValues l + countValues m + countValues r

/-- The trie states reachable from `Trie::new` by successful `insert` calls and
arbitrary `search` / `longest_match` calls. -/
inductive Reachable : Trie → Prop where
  | new : Reachable Trie.new
  | insert (t t' : Trie) (tokens : List Byte) (v : Value) :
      Reachable t → t.insert tokens v = .ok t' → Reachable t'
  | search (t : Trie) (tokens : List Byte) :
      Reachable t → Reachable (t.search tokens).2
  | longest (t : Trie) (tokens : List Byte) :
      Reachable t → Reachable (t.longestMatchFull tokens).2

/-- `insert` that keeps the previous trie when the call fails: the `unwrap`
pattern of the source's tests, used to build concrete example tries. -/
def insertD (t : Trie) (tokens : List Byte) (v : Value) : Trie :=
  match t.insert tokens v with
  | .ok t' => t'
  | .error _ => t

/-- The trie of the source's `test_longest_match`: `"abcdefgh" → [1]` and
`"abcd" → [2]` inserted in that order (bytes are ASCII codes). -/
def trieLM : Trie :=
  insertD (insertD Trie.new [97, 98, 99, 100, 101, 102, 103, 104] [1]) [97, 98, 99, 100] [2]

/-- The literal cell tree that the two inserts of `trieLM` build (lemma
`trieLM_eq` below proves this); note the zigzag shape caused by middle
children allocated with the parent byte as key. -/
def trieLMroot : TrieNode :=
  (.mk none (some (.mk none none (some (.mk none (some (.mk none none (some (.mk none (some (.mk none none (some (.mk none (some (.mk none none (some (.mk none (some (.mk none none (some (.mk none (some (.mk none none (some (.mk none (some (.mk none none (some (.mk none none none (some [1]) 104 0)) none 103 0)) none none 103 0)) none 102 0)) none none 102 0)) none 101 0)) none none 101 0)) none 100 0)) none (some [2]) 100 0)) none 99 0)) none none 99 0)) none 98 0)) none none 98 0)) none 97 0)) none none 97 0)

/-! ## Helper lemmas: the search walk -/

theorem searchPost_spec (node : Option TrieNode) (tokens : List Byte) :
    searchPost node tokens =
      match walkPath node tokens with
      | some p => bumpAt node p
      | none => node := by
  induction node, tokens using searchPost.induct with
  | case1 node => simp [searchPost.eq_def, walkPath.eq_def]
  | case2 t ts => simp [searchPost.eq_def, walkPath.eq_def]
  | case3 l m r v k u key rest h ih =>
    rw [searchPost.eq_def, walkPath.eq_def]
    cases hwp : walkPath l (key :: rest) with
    | none => simp [h, hwp] at ih ⊢; simp [ih]
    | some p => simp [h, hwp, bumpAt] at ih ⊢; simp [ih]
  | case4 l m r v k u key rest h1 h2 ih =>
    rw [searchPost.eq_def, walkPath.eq_def]
    cases hwp : walkPath r (key :: rest) with
    | none => simp [h1, h2, hwp] at ih ⊢; simp [ih]
    | some p => simp [h1, h2, hwp, bumpAt] at ih ⊢; simp [ih]
  | case5 l m r v k u key h1 h2 =>
    rw [searchPost.eq_def, walkPath.eq_def]
    simp [h1, h2, bumpAt, TrieNode.bumpUses]
  | case6 l m r v k u key h1 h2 hd tl ih =>
    rw [searchPost.eq_def, walkPath.eq_def]
    cases hwp : walkPath m (hd :: tl) with
    | none => simp [h1, h2, hwp] at ih ⊢; simp [ih]
    | some p => simp [h1, h2, hwp, bumpAt] at ih ⊢; simp [ih]

theorem walkPath_cell (node : Option TrieNode) (tokens : List Byte) (p : List Dir)
    (hwp : walkPath node tokens = some p) :
    ∃ c, getNode node p = some c ∧ lookupGo node tokens = c.value := by
  induction node, tokens using walkPath.induct generalizing p with
  | case1 node => simp [walkPath.eq_def] at hwp
  | case2 t ts => simp [walkPath.eq_def] at hwp
  | case3 l m r v k u key rest h ih =>
    rw [walkPath.eq_def] at hwp
    simp [h] at hwp
    obtain ⟨q, hq, rfl⟩ := hwp
    obtain ⟨c, hc, hl⟩ := ih q hq
    exact ⟨c, by simp [getNode, hc], by rw [lookupGo.eq_def]; simp [h, hl]⟩
  | case4 l m r v k u key rest h1 h2 ih =>
    rw [walkPath.eq_def] at hwp
    simp [h1, h2] at hwp
    obtain ⟨q, hq, rfl⟩ := hwp
    obtain ⟨c, hc, hl⟩ := ih q hq
    exact ⟨c, by simp [getNode, hc], by rw [lookupGo.eq_def]; simp [h1, h2, hl]⟩
  | case5 l m r v k u key h1 h2 =>
    rw [walkPath.eq_def] at hwp
    simp [h1, h2] at hwp
    subst hwp
    exact ⟨.mk l m r v k u, by simp [getNode], by rw [lookupGo.eq_def]; simp [h1, h2, TrieNode.value]⟩
  | case6 l m r v k u key h1 h2 hd tl ih =>
    rw [walkPath.eq_def] at hwp
    simp [h1, h2] at hwp
    obtain ⟨q, hq, rfl⟩ := hwp
    obtain ⟨c, hc, hl⟩ := ih q hq
    exact ⟨c, by simp [getNode, hc], by rw [lookupGo.eq_def]; simp [h1, h2, hl]⟩

theorem lookupGo_of_walkPath_none (node : Option TrieNode) (tokens : List Byte)
    (hwp : walkPath node tokens = none) : lookupGo node tokens = none := by
  induction node, tokens using walkPath.induct with
  | case1 node => simp [lookupGo.eq_def]
  | case2 t ts => simp [lookupGo.eq_def]
  | case3 l m r v k u key rest h ih =>
    rw [walkPath.eq_def] at hwp
    simp [h] at hwp
    rw [lookupGo.eq_def]
    simp [h, ih hwp]
  | case4 l m r v k u key rest h1 h2 ih =>
    rw [walkPath.eq_def] at hwp
    simp [h1, h2] at hwp
    rw [lookupGo.eq_def]
    simp [h1, h2, ih hwp]
  | case5 l m r v k u key h1 h2 =>
    rw [walkPath.eq_def] at hwp
    simp [h1, h2] at hwp
  | case6 l m r v k u key h1 h2 hd tl ih =>
    rw [walkPath.eq_def] at hwp
    simp [h1, h2] at hwp
    rw [lookupGo.eq_def]
    simp [h1, h2, ih hwp]

/-! ## Helper lemmas: paths, bumps, stripping -/

theorem getNode_bumpAt_self (p : List Dir) (node : Option TrieNode) (c : TrieNode)
    (hc : getNode node p = some c) :
    getNode (bumpAt node p) p = some c.bumpUses := by
  induction p generalizing node with
  | nil =>
    simp [getNode] at hc
    subst hc
    simp [bumpAt, getNode]
  | cons d ds ih =>
    cases node with
    | none => simp [getNode] at hc
    | some n =>
      cases n with
      | mk l m r v k u =>
        cases d with
        | left =>
          simp [getNode] at hc
          simp [bumpAt, getNode, ih l hc]
        | middle =>
          simp [getNode] at hc
          simp [bumpAt, getNode, ih m hc]
        | right =>
          simp [getNode] at hc
          simp [bumpAt, getNode, ih r hc]

theorem usesAt_bumpAt_ne (p q : List Dir) (node : Option TrieNode) (hne : q ≠ p) :
    (getNode (bumpAt node p) q).map TrieNode.uses = (getNode node q).map TrieNode.uses := by
  induction p generalizing q node with
  | nil =>
    cases node with
    | none => simp [bumpAt]
    | some n =>
      cases n with
      | mk l m r v k u =>
        cases q with
        | nil => exact absurd rfl hne
        | cons d qs => cases d <;> simp [bumpAt, TrieNode.bumpUses, getNode]
  | cons d ds ih =>
    cases node with
    | none => simp [bumpAt]
    | some n =>
      cases n with
      | mk l m r v k u =>
        cases q with
        | nil => cases d <;> simp [bumpAt, getNode, TrieNode.uses]
        | cons d' qs =>
          cases d <;> cases d' <;>
            simp [bumpAt, getNode] <;>
            exact ih qs _ (by intro hq; exact hne (by rw [hq]))

theorem stripUses_bumpAt (p : List Dir) (node : Option TrieNode) :
    stripUses (bumpAt node p) = stripUses node := by
  induction p generalizing node with
  | nil =>
    cases node with
    | none => simp [bumpAt]
    | some n => cases n with
      | mk l m r v k u => simp [bumpAt, TrieNode.bumpUses, stripUses]
  | cons d ds ih =>
    cases node with
    | none => simp [bumpAt]
    | some n => cases n with
      | mk l m r v k u => cases d <;> simp [bumpAt, stripUses, ih]

theorem walkPath_stripUses (node : Option TrieNode) (tokens : List Byte) :
    walkPath (stripUses node) tokens = walkPath node tokens := by
  induction node, tokens using walkPath.induct with
  | case1 node => simp [walkPath.eq_def]
  | case2 t ts => simp [stripUses, walkPath.eq_def]
  | case3 l m r v k u key rest h ih =>
    rw [stripUses]
    rw [walkPath.eq_def, walkPath.eq_def]
    simp [h, ih]
  | case4 l m r v k u key rest h1 h2 ih =>
    rw [stripUses]
    rw [walkPath.eq_def, walkPath.eq_def]
    simp [h1, h2, ih]
  | case5 l m r v k u key h1 h2 =>
    rw [stripUses]
    rw [walkPath.eq_def, walkPath.eq_def]
    simp [h1, h2]
  | case6 l m r v k u key h1 h2 hd tl ih =>
    rw [stripUses]
    rw [walkPath.eq_def, walkPath.eq_def]
    simp [h1, h2, ih]

theorem lookupGo_stripUses (node : Option TrieNode) (tokens : List Byte) :
    lookupGo (stripUses node) tokens = lookupGo node tokens := by
  induction node, tokens using lookupGo.induct with
  | case1 node => simp [lookupGo.eq_def]
  | case2 t ts => simp [stripUses, lookupGo.eq_def]
  | case3 l m r v k u key rest h ih =>
    rw [stripUses]
    rw [lookupGo.eq_def, lookupGo.eq_def]
    simp [h, ih]
  | case4 l m r v k u key rest h1 h2 ih =>
    rw [stripUses]
    rw [lookupGo.eq_def, lookupGo.eq_def]
    simp [h1, h2, ih]
  | case5 l m r v k u key h1 h2 =>
    rw [stripUses]
    rw [lookupGo.eq_def, lookupGo.eq_def]
    simp [h1, h2]
  | case6 l m r v k u key h1 h2 hd tl ih =>
    rw [stripUses]
    rw [lookupGo.eq_def, lookupGo.eq_def]
    simp [h1, h2, ih]

theorem getNode_stripUses (p : List Dir) (node : Option TrieNode) :
    getNode (stripUses node) p = stripUses (getNode node p) := by
  induction p generalizing node with
  | nil => simp [getNode]
  | cons d ds ih =>
    cases node with
    | none => simp [getNode, stripUses]
    | some n => cases n with
      | mk l m r v k u => cases d <;> simp [getNode, stripUses, ih]

/-! ## Helper lemmas: freshly built subtrees and `recursive_insert` -/

theorem freshSpine_cons (r : Byte) (rs : List Byte) (v : Value) :
    freshSpine (r :: rs) v =
      match rs with
      | [] => TrieNode.new r (some v)
      | _ :: _ => .mk none (some (freshMiddle r rs v)) none none r 0 := by
  cases rs <;> simp [freshSpine]

theorem freshMiddle_cons (k r : Byte) (rs : List Byte) (v : Value) :
    freshMiddle k (r :: rs) v =
      if r < k then .mk (some (freshSpine (r :: rs) v)) none none none k 0
      else if k < r then .mk none none (some (freshSpine (r :: rs) v)) none k 0
      else freshSpine (r :: rs) v := by
  cases rs <;> simp [freshMiddle, freshSpine]

theorem lookup_freshSpine (tokens : List Byte) (v : Value) (hne : tokens ≠ []) :
    lookupGo (some (freshSpine tokens v)) tokens = some v := by
  induction tokens with
  | nil => exact absurd rfl hne
  | cons t tl ih =>
    cases tl with
    | nil => simp [freshSpine, TrieNode.new, lookupGo.eq_def]
    | cons r rs =>
      rw [freshSpine, lookupGo.eq_def]
      simp only [lt_self_iff_false, if_false, reduceCtorEq]
      rw [freshMiddle_cons]
      rcases lt_trichotomy r t with hlt | heq | hgt
      · rw [lookupGo.eq_def]
        simp only [hlt, if_true]
        exact ih (by simp)
      · subst heq
        simp only [lt_self_iff_false, if_false]
        exact ih (by simp)
      · rw [lookupGo.eq_def]
        simp only [hgt, not_lt_of_gt hgt, if_true, if_false]
        exact ih (by simp)

theorem lookup_freshMiddle (rest : List Byte) (k : Byte) (v : Value) (hne : rest ≠ []) :
    lookupGo (some (freshMiddle k rest v)) rest = some v := by
  cases rest with
  | nil => exact absurd rfl hne
  | cons r rs =>
    rw [freshMiddle_cons]
    rcases lt_trichotomy r k with hlt | heq | hgt
    · rw [lookupGo.eq_def]
      simp only [hlt, if_true]
      exact lookup_freshSpine _ _ (by simp)
    · subst heq
      simp only [lt_self_iff_false, if_false]
      exact lookup_freshSpine _ _ (by simp)
    · rw [lookupGo.eq_def]
      simp only [hgt, not_lt_of_gt hgt, if_true, if_false]
      exact lookup_freshSpine _ _ (by simp)

theorem countValues_freshSpine (tokens : List Byte) (v : Value) :
    countValues (some (freshSpine tokens v)) = 1 := by
  induction tokens with
  | nil => simp [freshSpine, TrieNode.new, countValues]
  | cons t tl ih =>
    cases tl with
    | nil => simp [freshSpine, TrieNode.new, countValues]
    | cons r rs =>
      rw [freshSpine]
      rw [freshMiddle_cons]
      rcases lt_trichotomy r t with hlt | heq | hgt
      · simp only [hlt, if_true]
        simp [countValues, ih]
      · subst heq
        simp only [lt_self_iff_false, if_false]
        simp [countValues, ih]
      · simp only [hgt, not_lt_of_gt hgt, if_true, if_false]
        simp [countValues, ih]

theorem countValues_freshMiddle (rest : List Byte) (k : Byte) (v : Value) (hne : rest ≠ []) :
    countValues (some (freshMiddle k rest v)) = 1 := by
  cases rest with
  | nil => exact absurd rfl hne
  | cons r rs =>
    rw [freshMiddle_cons]
    rcases lt_trichotomy r k with hlt | heq | hgt
    · simp only [hlt, if_true]
      simp [countValues, countValues_freshSpine]
    · subst heq
      simp only [lt_self_iff_false, if_false]
      exact countValues_freshSpine _ _
    · simp only [hgt, not_lt_of_gt hgt, if_true, if_false]
      simp [countValues, countValues_freshSpine]

theorem ri_ok_lookup (node : TrieNode) (tokens : List Byte) (v : Value) (node' : TrieNode)
    (h : recursive_insert node tokens v = .ok node') :
    lookupGo (some node') tokens = some v := by
  induction node, tokens, v using recursive_insert.induct generalizing node' with
  | case1 t x => rw [recursive_insert.eq_def] at h; simp at h
  | case2 m r v0 k0 u key rest v hlt ln ih =>
    rw [recursive_insert.eq_def] at h
    simp only [hlt, if_true] at h
    cases hri : recursive_insert ln (key :: rest) v with
    | error e => rw [hri] at h; simp [Except.map] at h
    | ok ln' =>
      rw [hri] at h
      simp only [Except.map, Except.ok.injEq] at h
      subst h
      rw [lookupGo.eq_def]
      simp only [hlt, if_true]
      exact ih ln' hri
  | case3 m r v0 k0 u key rest v hlt =>
    rw [recursive_insert.eq_def] at h
    simp only [hlt, if_true, Except.ok.injEq] at h
    subst h
    rw [lookupGo.eq_def]
    simp only [hlt, if_true]
    exact lookup_freshSpine _ _ (by simp)
  | case4 l m v0 k0 u key rest v hlt hgt ln ih =>
    rw [recursive_insert.eq_def] at h
    simp only [hlt, hgt, if_true, if_false] at h
    cases hri : recursive_insert ln (key :: rest) v with
    | error e => rw [hri] at h; simp [Except.map] at h
    | ok ln' =>
      rw [hri] at h
      simp only [Except.map, Except.ok.injEq] at h
      subst h
      rw [lookupGo.eq_def]
      simp only [hlt, hgt, if_true, if_false]
      exact ih ln' hri
  | case5 l m v0 k0 u key rest v hlt hgt =>
    rw [recursive_insert.eq_def] at h
    simp only [hlt, hgt, if_true, if_false, Except.ok.injEq] at h
    subst h
    rw [lookupGo.eq_def]
    simp only [hlt, hgt, if_true, if_false]
    exact lookup_freshSpine _ _ (by simp)
  | case6 l m r k0 u key v hlt hgt val =>
    rw [recursive_insert.eq_def] at h
    simp [hlt, hgt] at h
  | case7 l m r k0 u key v hlt hgt =>
    rw [recursive_insert.eq_def] at h
    simp only [hlt, hgt, if_false, Except.ok.injEq] at h
    subst h
    rw [lookupGo.eq_def]
    simp [hlt, hgt, TrieNode.value]
  | case8 l r v0 k0 u key v hlt hgt hd tl ln ih =>
    rw [recursive_insert.eq_def] at h
    simp only [hlt, hgt, if_false] at h
    cases hri : recursive_insert ln (hd :: tl) v with
    | error e => rw [hri] at h; simp [Except.map] at h
    | ok ln' =>
      rw [hri] at h
      simp only [Except.map, Except.ok.injEq] at h
      subst h
      rw [lookupGo.eq_def]
      simp only [hlt, hgt, if_false]
      exact ih ln' hri
  | case9 l r v0 k0 u key v hlt hgt hd tl =>
    rw [recursive_insert.eq_def] at h
    simp only [hlt, hgt, if_false, Except.ok.injEq] at h
    subst h
    rw [lookupGo.eq_def]
    simp only [hlt, hgt, if_false]
    exact lookup_freshMiddle _ _ _ (by simp)

theorem ri_ok_of_lookup_none (node : TrieNode) (tokens : List Byte) (v : Value)
    (hne : tokens ≠ []) (hlk : lookupGo (some node) tokens = none) :
    ∃ node', recursive_insert node tokens v = .ok node' := by
  induction node, tokens, v using recursive_insert.induct with
  | case1 t x => exact absurd rfl hne
  | case2 m r v0 k0 u key rest v hlt ln ih =>
    rw [lookupGo.eq_def] at hlk
    simp only [hlt, if_true] at hlk
    obtain ⟨ln', hri⟩ := ih (by simp) hlk
    refine ⟨.mk (some ln') m r v0 k0 u, ?_⟩
    rw [recursive_insert.eq_def]
    simp [hlt, hri, Except.map]
  | case3 m r v0 k0 u key rest v hlt =>
    refine ⟨.mk (some (freshSpine (key :: rest) v)) m r v0 k0 u, ?_⟩
    rw [recursive_insert.eq_def]
    simp [hlt]
  | case4 l m v0 k0 u key rest v hlt hgt ln ih =>
    rw [lookupGo.eq_def] at hlk
    simp only [hlt, hgt, if_true, if_false] at hlk
    obtain ⟨ln', hri⟩ := ih (by simp) hlk
    refine ⟨.mk l m (some ln') v0 k0 u, ?_⟩
    rw [recursive_insert.eq_def]
    simp [hlt, hgt, hri, Except.map]
  | case5 l m v0 k0 u key rest v hlt hgt =>
    refine ⟨.mk l m (some (freshSpine (key :: rest) v)) v0 k0 u, ?_⟩
    rw [recursive_insert.eq_def]
    simp [hlt, hgt]
  | case6 l m r k0 u key v hlt hgt val =>
    rw [lookupGo.eq_def] at hlk
    simp [hlt, hgt, TrieNode.value] at hlk
  | case7 l m r k0 u key v hlt hgt =>
    refine ⟨.mk l m r (some v) k0 u, ?_⟩
    rw [recursive_insert.eq_def]
    simp [hlt, hgt]
  | case8 l r v0 k0 u key v hlt hgt hd tl ln ih =>
    rw [lookupGo.eq_def] at hlk
    simp only [hlt, hgt, if_false] at hlk
    obtain ⟨ln', hri⟩ := ih (by simp) hlk
    refine ⟨.mk l (some ln') r v0 k0 u, ?_⟩
    rw [recursive_insert.eq_def]
    simp [hlt, hgt, hri, Except.map]
  | case9 l r v0 k0 u key v hlt hgt hd tl =>
    refine ⟨.mk l (some (freshMiddle k0 (hd :: tl) v)) r v0 k0 u, ?_⟩
    rw [recursive_insert.eq_def]
    simp [hlt, hgt]

theorem ri_dup (node : TrieNode) (tokens : List Byte) (v : Value) (w : Value)
    (hlk : lookupGo (some node) tokens = some w) :
    recursive_insert node tokens v = .error .duplicateKey := by
  induction node, tokens, v using recursive_insert.induct with
  | case1 t x => rw [lookupGo.eq_def] at hlk; simp at hlk
  | case2 m r v0 k0 u key rest v hlt ln ih =>
    rw [lookupGo.eq_def] at hlk
    simp only [hlt, if_true] at hlk
    rw [recursive_insert.eq_def]
    simp [hlt, ih hlk, Except.map]
  | case3 m r v0 k0 u key rest v hlt =>
    rw [lookupGo.eq_def] at hlk
    simp only [hlt, if_true] at hlk
    rw [lookupGo.eq_def] at hlk
    simp at hlk
  | case4 l m v0 k0 u key rest v hlt hgt ln ih =>
    rw [lookupGo.eq_def] at hlk
    simp only [hlt, hgt, if_true, if_false] at hlk
    rw [recursive_insert.eq_def]
    simp [hlt, hgt, ih hlk, Except.map]
  | case5 l m v0 k0 u key rest v hlt hgt =>
    rw [lookupGo.eq_def] at hlk
    simp only [hlt, hgt, if_true, if_false] at hlk
    rw [lookupGo.eq_def] at hlk
    simp at hlk
  | case6 l m r k0 u key v hlt hgt val =>
    rw [recursive_insert.eq_def]
    simp [hlt, hgt]
  | case7 l m r k0 u key v hlt hgt =>
    rw [lookupGo.eq_def] at hlk
    simp [hlt, hgt, TrieNode.value] at hlk
  | case8 l r v0 k0 u key v hlt hgt hd tl ln ih =>
    rw [lookupGo.eq_def] at hlk
    simp only [hlt, hgt, if_false] at hlk
    rw [recursive_insert.eq_def]
    simp [hlt, hgt, ih hlk, Except.map]
  | case9 l r v0 k0 u key v hlt hgt hd tl =>
    rw [lookupGo.eq_def] at hlk
    simp only [hlt, hgt, if_false] at hlk
    rw [lookupGo.eq_def] at hlk
    simp at hlk

theorem ri_count (node : TrieNode) (tokens : List Byte) (v : Value) (node' : TrieNode)
    (h : recursive_insert node tokens v = .ok node') :
    countValues (some node') = countValues (some node) + 1 := by
  induction node, tokens, v using recursive_insert.induct generalizing node' with
  | case1 t x => rw [recursive_insert.eq_def] at h; simp at h
  | case2 m r v0 k0 u key rest v hlt ln ih =>
    rw [recursive_insert.eq_def] at h
    simp only [hlt, if_true] at h
    cases hri : recursive_insert ln (key :: rest) v with
    | error e => rw [hri] at h; simp [Except.map] at h
    | ok ln' =>
      rw [hri] at h
      simp only [Except.map, Except.ok.injEq] at h
      subst h
      have := ih ln' hri
      simp [countValues] at this ⊢
      omega
  | case3 m r v0 k0 u key rest v hlt =>
    rw [recursive_insert.eq_def] at h
    simp only [hlt, if_true, Except.ok.injEq] at h
    subst h
    have := countValues_freshSpine (key :: rest) v
    simp [countValues] at this ⊢
    omega
  | case4 l m v0 k0 u key rest v hlt hgt ln ih =>
    rw [recursive_insert.eq_def] at h
    simp only [hlt, hgt, if_true, if_false] at h
    cases hri : recursive_insert ln (key :: rest) v with
    | error e => rw [hri] at h; simp [Except.map] at h
    | ok ln' =>
      rw [hri] at h
      simp only [Except.map, Except.ok.injEq] at h
      subst h
      have := ih ln' hri
      simp [countValues] at this ⊢
      omega
  | case5 l m v0 k0 u key rest v hlt hgt =>
    rw [recursive_insert.eq_def] at h
    simp only [hlt, hgt, if_true, if_false, Except.ok.injEq] at h
    subst h
    have := countValues_freshSpine (key :: rest) v
    simp [countValues] at this ⊢
    omega
  | case6 l m r k0 u key v hlt hgt val =>
    rw [recursive_insert.eq_def] at h
    simp [hlt, hgt] at h
  | case7 l m r k0 u key v hlt hgt =>
    rw [recursive_insert.eq_def] at h
    simp only [hlt, hgt, if_false, Except.ok.injEq] at h
    subst h
    simp [countValues]
    omega
  | case8 l r v0 k0 u key v hlt hgt hd tl ln ih =>
    rw [recursive_insert.eq_def] at h
    simp only [hlt, hgt, if_false] at h
    cases hri : recursive_insert ln (hd :: tl) v with
    | error e => rw [hri] at h; simp [Except.map] at h
    | ok ln' =>
      rw [hri] at h
      simp only [Except.map, Except.ok.injEq] at h
      subst h
      have := ih ln' hri
      simp [countValues] at this ⊢
      omega
  | case9 l r v0 k0 u key v hlt hgt hd tl =>
    rw [recursive_insert.eq_def] at h
    simp only [hlt, hgt, if_false, Except.ok.injEq] at h
    subst h
    have := countValues_freshMiddle (hd :: tl) k0 v (by simp)
    simp [countValues] at this ⊢
    omega

/-! ## Helper lemmas: the longest-match walk -/

theorem lmPost_eq (node : Option TrieNode) (tokens : List Byte) :
    lmPost node tokens = node := by
  induction node, tokens using lmPost.induct with
  | case1 node => simp [lmPost.eq_def]
  | case2 hd tl => simp [lmPost.eq_def]
  | case3 l m r v k u key rest h ih =>
    rw [lmPost.eq_def]
    simp [h, ih]
  | case4 l m r v k u key rest h1 h2 ih =>
    rw [lmPost.eq_def]
    simp [h1, h2, ih]
  | case5 l m r v k u key rest h1 h2 ih =>
    rw [lmPost.eq_def]
    simp [h1, h2, ih]

theorem lmValue_lastOr (node : Option TrieNode) (tokens : List Byte) (offset : Nat)
    (best : Option (Value × Nat)) :
    lmValue node tokens offset best = lastOr (lmRecords node tokens offset) best := by
  induction node, tokens, offset, best using lmValue.induct with
  | case1 node x best => simp [lmValue.eq_def, lmRecords.eq_def, lastOr]
  | case2 hd tl x best => simp [lmValue.eq_def, lmRecords.eq_def, lastOr]
  | case3 l m r v k u key rest offset best h ih =>
    rw [lmValue.eq_def, lmRecords.eq_def]
    simp [h, ih]
  | case4 l m r v k u key rest offset best h1 h2 ih =>
    rw [lmValue.eq_def, lmRecords.eq_def]
    simp [h1, h2, ih]
  | case5 l m r v k u key rest offset best h1 h2 b' ih =>
    rw [lmValue.eq_def, lmRecords.eq_def]
    simp only [h1, h2, if_false]
    cases v with
    | some w => simpa [lastOr] using ih
    | none => simpa [lastOr] using ih

theorem lm_of_lookup (node : Option TrieNode) (tokens : List Byte) (offset : Nat)
    (best : Option (Value × Nat)) (w : Value) (hlk : lookupGo node tokens = some w) :
    lmValue node tokens offset best = some (w, offset + tokens.length) := by
  induction node, tokens, offset, best using lmValue.induct with
  | case1 node x best => rw [lookupGo.eq_def] at hlk; simp at hlk
  | case2 hd tl x best => rw [lookupGo.eq_def] at hlk; simp at hlk
  | case3 l m r v k u key rest offset best h ih =>
    rw [lookupGo.eq_def] at hlk
    simp only [h, if_true] at hlk
    rw [lmValue.eq_def]
    simp [h, ih hlk]
  | case4 l m r v k u key rest offset best h1 h2 ih =>
    rw [lookupGo.eq_def] at hlk
    simp only [h1, h2, if_true, if_false] at hlk
    rw [lmValue.eq_def]
    simp [h1, h2, ih hlk]
  | case5 l m r v k u key rest offset best h1 h2 b' ih =>
    rw [lookupGo.eq_def] at hlk
    simp only [h1, h2, if_false] at hlk
    rw [lmValue.eq_def]
    simp only [h1, h2, if_false]
    cases rest with
    | nil =>
      subst hlk
      simp [lmValue.eq_def]
    | cons hd tl =>
      have := ih hlk
      simp only at this
      simp only [this]
      simp [List.length_cons]
      omega

/-- The offsets of all recorded candidates exceed the starting offset. -/
theorem lmRecords_lb (node : Option TrieNode) (tokens : List Byte) (offset : Nat) :
    ∀ x ∈ lmRecords node tokens offset, offset < x.2 := by
  induction node, tokens, offset using lmRecords.induct with
  | case1 node x => simp [lmRecords.eq_def]
  | case2 hd tl x => simp [lmRecords.eq_def]
  | case3 l m r v k u key rest offset h ih =>
    rw [lmRecords.eq_def]
    simp only [h, if_true]
    exact ih
  | case4 l m r v k u key rest offset h1 h2 ih =>
    rw [lmRecords.eq_def]
    simp only [h1, h2, if_true, if_false]
    exact ih
  | case5 l m r v k u key rest offset h1 h2 ih =>
    rw [lmRecords.eq_def]
    simp only [h1, h2, if_false]
    intro x hx
    cases v with
    | some w =>
      simp at hx
      rcases hx with hx | hx
      · subst hx; simp
      · exact Nat.lt_of_succ_lt (ih x hx)
    | none =>
      simp at hx
      exact Nat.lt_of_succ_lt (ih x hx)

/-- The recorded candidates have strictly increasing offsets (walk order). -/
theorem lmRecords_sorted (node : Option TrieNode) (tokens : List Byte) (offset : Nat) :
    List.Pairwise (fun a b : Value × Nat => a.2 < b.2) (lmRecords node tokens offset) := by
  induction node, tokens, offset using lmRecords.induct with
  | case1 node x => simp [lmRecords.eq_def]
  | case2 hd tl x => simp [lmRecords.eq_def]
  | case3 l m r v k u key rest offset h ih =>
    rw [lmRecords.eq_def]
    simp only [h, if_true]
    exact ih
  | case4 l m r v k u key rest offset h1 h2 ih =>
    rw [lmRecords.eq_def]
    simp only [h1, h2, if_true, if_false]
    exact ih
  | case5 l m r v k u key rest offset h1 h2 ih =>
    rw [lmRecords.eq_def]
    simp only [h1, h2, if_false]
    cases v with
    | some w =>
      simp only [List.singleton_append, List.pairwise_cons]
      exact ⟨fun x hx => lmRecords_lb _ _ _ x hx, ih⟩
    | none => simpa using ih

theorem lastOr_ne_none (l : List (Value × Nat)) (a : Value × Nat) :
    ∃ y, lastOr l (some a) = some y := by
  induction l generalizing a with
  | nil => exact ⟨a, rfl⟩
  | cons x xs ih => exact ih x

theorem lastOr_max (l : List (Value × Nat)) (b : Option (Value × Nat)) (m : Value × Nat)
    (hs : List.Pairwise (fun a b : Value × Nat => a.2 < b.2) l)
    (h : lastOr l b = some m) :
    (m ∈ l ∨ b = some m) ∧ ∀ x ∈ l, x.2 ≤ m.2 := by
  induction l generalizing b with
  | nil => exact ⟨Or.inr h, by simp⟩
  | cons x xs ih =>
    simp only [List.pairwise_cons] at hs
    obtain ⟨hx, hxs⟩ := hs
    have h' : lastOr xs (some x) = some m := h
    obtain ⟨hm, hb⟩ := ih (some x) hxs h'
    refine ⟨?_, ?_⟩
    · rcases hm with hm | hm
      · exact Or.inl (List.mem_cons_of_mem _ hm)
      · simp at hm
        subst hm
        exact Or.inl (List.mem_cons_self _ _)
    · intro y hy
      rcases List.mem_cons.mp hy with rfl | hy
      · rcases hm with hm | hm
        · exact le_of_lt (lt_of_lt_of_le (hx m hm) (le_refl _))
        · simp at hm; subst hm; exact le_refl _
      · exact hb y hy

/-! ## Helper lemmas: counting, singleton tries, negative lookup -/

theorem countValues_searchPost (node : Option TrieNode) (tokens : List Byte) :
    countValues (searchPost node tokens) = countValues node := by
  induction node, tokens using searchPost.induct with
  | case1 node => simp [searchPost.eq_def]
  | case2 t ts => simp [searchPost.eq_def]
  | case3 l m r v k u key rest h ih =>
    rw [searchPost.eq_def]
    simp [h, countValues, ih]
  | case4 l m r v k u key rest h1 h2 ih =>
    rw [searchPost.eq_def]
    simp [h1, h2, countValues, ih]
  | case5 l m r v k u key h1 h2 =>
    rw [searchPost.eq_def]
    simp [h1, h2, countValues]
  | case6 l m r v k u key h1 h2 hd tl ih =>
    rw [searchPost.eq_def]
    simp [h1, h2, countValues, ih]

theorem lookup_new_none (k : Byte) (rest : List Byte) :
    lookupGo (some (TrieNode.new k none)) (k :: rest) = none := by
  rw [lookupGo.eq_def]
  cases rest <;> simp [TrieNode.new, lookupGo.eq_def]

theorem ri_new (k : Byte) (rest : List Byte) (v : Value) :
    recursive_insert (TrieNode.new k none) (k :: rest) v = .ok (freshSpine (k :: rest) v) := by
  rw [recursive_insert.eq_def]
  cases rest <;> simp [TrieNode.new, freshSpine]

theorem insert_new_root (tokens : List Byte) (v : Value) (t' : Trie)
    (h : Trie.new.insert tokens v = .ok t') :
    t'.root = some (freshSpine tokens v) ∧ t'.size = 1 := by
  cases tokens with
  | nil => simp [Trie.insert] at h
  | cons k rest =>
    rw [Trie.insert] at h
    simp only [Trie.new] at h
    rw [ri_new] at h
    simp only [Except.ok.injEq] at h
    subst h
    exact ⟨rfl, rfl⟩

theorem lookup_freshMiddle_ne (rest : List Byte) :
    ∀ (k : Byte) (v : Value) (rest' : List Byte), rest ≠ [] → rest' ≠ rest →
      lookupGo (some (freshMiddle k rest v)) rest' = none := by
  induction rest with
  | nil => intro _ _ _ h; exact absurd rfl h
  | cons r rs ih =>
    intro k v rest' _ hne'
    have spine : ∀ (u : List Byte), u ≠ r :: rs →
        lookupGo (some (freshSpine (r :: rs) v)) u = none := by
      intro u hu
      rw [freshSpine_cons]
      cases rs with
      | nil =>
        cases u with
        | nil => simp [lookupGo.eq_def]
        | cons q qs =>
          rw [lookupGo.eq_def]
          rcases lt_trichotomy q r with h | h | h
          · simp [TrieNode.new, h, lookupGo.eq_def]
          · subst h
            cases qs with
            | nil => exact absurd rfl hu
            | cons s ss => simp [TrieNode.new, lookupGo.eq_def]
          · simp [TrieNode.new, h, not_lt_of_gt h, lookupGo.eq_def]
      | cons s ss =>
        cases u with
        | nil => simp [lookupGo.eq_def]
        | cons q qs =>
          rw [lookupGo.eq_def]
          rcases lt_trichotomy q r with h | h | h
          · simp [h, lookupGo.eq_def]
          · subst h
            cases qs with
            | nil => simp
            | cons b bs =>
              have hq : b :: bs ≠ s :: ss := by
                intro hq
                apply hu
                rw [hq]
              simp only [lt_self_iff_false, if_false, reduceCtorEq]
              exact ih q v (b :: bs) (by simp) hq
          · simp [h, not_lt_of_gt h, lookupGo.eq_def]
    rw [freshMiddle_cons]
    rcases lt_trichotomy r k with h | h | h
    · simp only [h, if_true]
      cases rest' with
      | nil => simp [lookupGo.eq_def]
      | cons q qs =>
        rw [lookupGo.eq_def]
        rcases lt_trichotomy q k with h2 | h2 | h2
        · simp only [h2, if_true]
          exact spine (q :: qs) hne'
        · subst h2
          cases qs <;> simp [lookupGo.eq_def]
        · simp [h2, not_lt_of_gt h2, lookupGo.eq_def]
    · subst h
      simp only [lt_self_iff_false, if_false]
      exact spine rest' hne'
    · simp only [h, not_lt_of_gt h, if_true, if_false]
      cases rest' with
      | nil => simp [lookupGo.eq_def]
      | cons q qs =>
        rw [lookupGo.eq_def]
        rcases lt_trichotomy q k with h2 | h2 | h2
        · simp [h2, lookupGo.eq_def]
        · subst h2
          cases qs <;> simp [lookupGo.eq_def]
        · simp only [h2, not_lt_of_gt h2, if_true, if_false]
          exact spine (q :: qs) hne'

theorem lookup_freshSpine_ne (tokens : List Byte) (v : Value) (tokens' : List Byte)
    (hne : tokens ≠ []) (hne' : tokens' ≠ tokens) :
    lookupGo (some (freshSpine tokens v)) tokens' = none := by
  cases tokens with
  | nil => exact absurd rfl hne
  | cons t tl =>
    rw [freshSpine_cons]
    cases tl with
    | nil =>
      cases tokens' with
      | nil => simp [lookupGo.eq_def]
      | cons q qs =>
        rw [lookupGo.eq_def]
        rcases lt_trichotomy q t with h | h | h
        · simp [TrieNode.new, h, lookupGo.eq_def]
        · subst h
          cases qs with
          | nil => exact absurd rfl hne'
          | cons s ss => simp [TrieNode.new, lookupGo.eq_def]
        · simp [TrieNode.new, h, not_lt_of_gt h, lookupGo.eq_def]
    | cons r rs =>
      cases tokens' with
      | nil => simp [lookupGo.eq_def]
      | cons q qs =>
        rw [lookupGo.eq_def]
        rcases lt_trichotomy q t with h | h | h
        · simp [h, lookupGo.eq_def]
        · subst h
          cases qs with
          | nil => simp
          | cons b bs =>
            have hq : b :: bs ≠ r :: rs := by
              intro hq
              apply hne'
              rw [hq]
            simp only [lt_self_iff_false, if_false, reduceCtorEq]
            exact lookup_freshMiddle_ne (r :: rs) q v (b :: bs) (by simp) hq
        · simp [h, not_lt_of_gt h, lookupGo.eq_def]

/-! ## Evaluation of the concrete example trie -/

theorem trieLM_eq : trieLM = { root := some trieLMroot, size := 2 } := by
  simp only [trieLM, trieLMroot, insertD, Trie.insert, Trie.new, recursive_insert,
    TrieNode.new, freshMiddle, freshSpine, Except.map]
  norm_num

/-! ## The claims -/

/-- C1: for every non-empty byte sequence `k` and value `v`, after
`insert(k, v)` on a trie that does not yet contain `k` (no value is stored at
`k`, so the insert succeeds), `search(k)` returns `v`, and a subsequent
`longest_match` on `k` returns the same value `v` (with all of `k` consumed). -/
theorem claim_C1 (t : Trie) (tokens : List Byte) (v : Value) (hne : tokens ≠ [])
    (hfresh : lookupGo t.root tokens = none) :
    ∃ t', t.insert tokens v = .ok t' ∧ (t'.search tokens).1 = some v ∧
      t'.longest_match tokens = some (v, tokens.length) := by
  cases tokens with
  | nil => exact absurd rfl hne
  | cons k rest =>
    obtain ⟨root0, hroot0, hlk0⟩ : ∃ root0,
        (match t.root with | some r => r | none => TrieNode.new k none) = root0 ∧
        lookupGo (some root0) (k :: rest) = none := by
      cases htr : t.root with
      | none => exact ⟨TrieNode.new k none, rfl, lookup_new_none k rest⟩
      | some r => exact ⟨r, rfl, by rw [htr] at hfresh; exact hfresh⟩
    obtain ⟨node', hri⟩ := ri_ok_of_lookup_none root0 (k :: rest) v (by simp) hlk0
    have hins : t.insert (k :: rest) v = .ok { root := some node', size := t.size + 1 } := by
      rw [Trie.insert]
      rw [hroot0, hri]
    have hlk' : lookupGo (some node') (k :: rest) = some v := ri_ok_lookup _ _ _ _ hri
    refine ⟨_, hins, ?_, ?_⟩
    · exact hlk'
    · rw [Trie.longest_match, Trie.longestMatchFull]
      have := lm_of_lookup (some node') (k :: rest) 0 none v hlk'
      simpa using this

/-- Witness for C1 at a concrete input. -/
theorem claim_C1_witness :
    lookupGo Trie.new.root [5, 8] = none ∧
    (∃ t', Trie.new.insert [5, 8] [1] = .ok t' ∧ (t'.search [5, 8]).1 = some [1] ∧
      t'.longest_match [5, 8] = some ([1], 2)) :=
  ⟨by simp [Trie.new, lookupGo.eq_def],
   by simpa using claim_C1 Trie.new [5, 8] [1] (by simp) (by simp [Trie.new, lookupGo.eq_def])⟩

/-- C2: on the trie holding exactly `"abcd" → [2]` and `"abcdefgh" → [1]`, the
five `longest_match` results of the source's `test_longest_match`; and in
general `longest_match` returns the candidate with the greatest consumed
offset among the value-bearing cells visited on the walk (`lmRecords`), or
absent if none was visited. -/
theorem claim_C2 :
    (trieLM.longest_match [97, 98, 99, 100, 101, 102, 103, 104] = some ([1], 8) ∧
     trieLM.longest_match [97, 98, 99, 100, 101, 102, 103, 104, 105] = some ([1], 8) ∧
     trieLM.longest_match [97, 98, 99, 100] = some ([2], 4) ∧
     trieLM.longest_match [97, 98, 99, 100, 101] = some ([2], 4) ∧
     trieLM.longest_match [97, 98] = none) ∧
    ∀ (t : Trie) (tokens : List Byte),
      (t.longest_match tokens = none ↔ lmRecords t.root tokens 0 = []) ∧
      (∀ mv, t.longest_match tokens = some mv →
        mv ∈ lmRecords t.root tokens 0 ∧ ∀ x ∈ lmRecords t.root tokens 0, x.2 ≤ mv.2) := by
  constructor
  · refine ⟨?_, ?_, ?_, ?_, ?_⟩ <;>
      (rw [Trie.longest_match, Trie.longestMatchFull]
       simp only [trieLM_eq]
       rw [lmValue_lastOr]
       simp [lmRecords, trieLMroot, lastOr])
  · intro t tokens
    have hval : t.longest_match tokens = lastOr (lmRecords t.root tokens 0) none := by
      rw [Trie.longest_match, Trie.longestMatchFull]
      rw [lmValue_lastOr]
    constructor
    · rw [hval]
      cases hrec : lmRecords t.root tokens 0 with
      | nil => simp [lastOr]
      | cons x xs =>
        obtain ⟨y, hy⟩ := lastOr_ne_none xs x
        simp [lastOr, hy]
    · intro mv hmv
      rw [hval] at hmv
      obtain ⟨hm, hb⟩ := lastOr_max _ none mv (lmRecords_sorted t.root tokens 0) hmv
      rcases hm with hm | hm
      · exact ⟨hm, hb⟩
      · simp at hm

/-- Witness for the general part of C2 at a concrete input. -/
theorem claim_C2_witness :
    ([2], 4) ∈ lmRecords trieLM.root [97, 98, 99, 100, 101] 0 ∧
    ∀ x ∈ lmRecords trieLM.root [97, 98, 99, 100, 101] 0, x.2 ≤ 4 :=
  (claim_C2.2 trieLM [97, 98, 99, 100, 101]).2 ([2], 4) claim_C2.1.2.2.2.1

/-- C3 counterexample: on the trie holding only `[5] → [1]`, `longest_match
[5]` returns a match, yet the matched cell's `uses` counter is *not*
incremented — it is still 0 after the call (the increment lands on a
discarded clone), contradicting "exactly one cell's uses counter has been
incremented — the cell that produced the returned match". -/
theorem claim_C3_counterexample :
    ((insertD Trie.new [5] [1]).longestMatchFull [5]).1 = some ([1], 1) ∧
    usesAt ((insertD Trie.new [5] [1]).longestMatchFull [5]).2 [] = some 0 ∧
    usesAt (insertD Trie.new [5] [1]) [] = some 0 := by
  refine ⟨?_, ?_, ?_⟩ <;>
    simp [insertD, Trie.insert, Trie.new, recursive_insert, TrieNode.new, freshSpine,
      Trie.longestMatchFull, lmValue, lmPost, lmClone, usesAt, getNode, TrieNode.uses]

/-- C3 as amended: `longest_match` changes no cell's `uses` counter at all —
whether or not a match is returned — because the `uses += 1` it performs is
applied to a local deep clone of the matched cell that is immediately
discarded (the trie is only held by shared reference). -/
theorem claim_C3_amended (t : Trie) (tokens : List Byte) (q : List Dir) :
    usesAt (t.longestMatchFull tokens).2 q = usesAt t q := by
  rw [Trie.longestMatchFull]
  simp [usesAt, lmPost_eq]

/-- C9: `longest_match` leaves the entire trie unchanged — structure, values,
size and every `uses` counter: it takes the trie by shared reference and the
`uses` increment it performs is applied to a discarded deep clone of the
matched cell, never to the tree itself. -/
theorem claim_C9 (t : Trie) (tokens : List Byte) : (t.longestMatchFull tokens).2 = t := by
  rw [Trie.longestMatchFull]
  simp [lmPost_eq]

/-- C4 counterexample: on the trie holding only `[5, 8] → [1]`, `search [5]`
returns no value, yet the `uses` counter of the cell the walk lands on (the
root) goes from 0 to 1 — refuting "incremented when and only when the call
returns a value" and "no other cell's counter changes [when nothing is
returned]". -/
theorem claim_C4_counterexample :
    ((insertD Trie.new [5, 8] [1]).search [5]).1 = none ∧
    usesAt ((insertD Trie.new [5, 8] [1]).search [5]).2 [] = some 1 ∧
    usesAt (insertD Trie.new [5, 8] [1]) [] = some 0 := by
  refine ⟨?_, ?_, ?_⟩ <;>
    simp [insertD, Trie.insert, Trie.new, recursive_insert, TrieNode.new, freshMiddle,
      freshSpine, Trie.search, searchPost, lookupGo, usesAt, getNode, TrieNode.uses]

/-- C4 as amended: when `search` returns a value, the cell holding that value
(the landing cell of the walk) has its `uses` counter incremented by exactly
1 per call and no other cell's counter changes; `n` successful searches on
the same key raise that cell's counter by exactly `n` while every other
cell's counter is unchanged.  (The converse direction of the original claim
is false: the counter is also incremented when the walk lands on a cell with
no value — see the counterexample and C10.) -/
theorem claim_C4_amended (t : Trie) (tokens : List Byte) (v : Value)
    (h : (t.search tokens).1 = some v) :
    ∃ p c, getNode t.root p = some c ∧ c.value = some v ∧
      (∀ n : Nat, usesAt (searchIter t tokens n) p = some (c.uses + n)) ∧
      (∀ n : Nat, ((searchIter t tokens n).search tokens).1 = some v) ∧
      (∀ n : Nat, ∀ q : List Dir, q ≠ p →
        usesAt (searchIter t tokens n) q = usesAt t q) := by
  have hlk : lookupGo t.root tokens = some v := h
  cases hwp : walkPath t.root tokens with
  | none =>
    rw [lookupGo_of_walkPath_none t.root tokens hwp] at hlk
    exact absurd hlk (by simp)
  | some p =>
    obtain ⟨c, hc, hcv⟩ := walkPath_cell t.root tokens p hwp
    rw [hlk] at hcv
    have main : ∀ n : Nat, stripUses (searchIter t tokens n).root = stripUses t.root ∧
        getNode (searchIter t tokens n).root p =
          some (.mk c.left c.middle c.right c.value c.key (c.uses + n)) ∧
        (∀ q, q ≠ p → (getNode (searchIter t tokens n).root q).map TrieNode.uses =
          (getNode t.root q).map TrieNode.uses) := by
      intro n
      induction n with
      | zero =>
        refine ⟨rfl, ?_, fun q _ => rfl⟩
        cases c with
        | mk cl cm cr cv ck cu =>
          simpa [TrieNode.left, TrieNode.middle, TrieNode.right, TrieNode.value,
            TrieNode.key, TrieNode.uses] using hc
      | succ n ih =>
        obtain ⟨ihs, ihg, ihq⟩ := ih
        have hwpn : walkPath (searchIter t tokens n).root tokens = some p := by
          rw [← walkPath_stripUses, ihs, walkPath_stripUses, hwp]
        have hpost : (searchIter t tokens (n + 1)).root =
            bumpAt (searchIter t tokens n).root p := by
          simp only [searchIter, Trie.search]
          rw [searchPost_spec, hwpn]
        refine ⟨?_, ?_, ?_⟩
        · rw [hpost, stripUses_bumpAt, ihs]
        · rw [hpost]
          have := getNode_bumpAt_self p (searchIter t tokens n).root _ ihg
          simpa [TrieNode.bumpUses, Nat.add_assoc] using this
        · intro q hq
          rw [hpost, usesAt_bumpAt_ne p q _ hq]
          exact ihq q hq
    refine ⟨p, c, hc, hcv.symm, ?_, ?_, ?_⟩
    · intro n
      obtain ⟨_, hg, _⟩ := main n
      rw [usesAt, hg]
      simp [TrieNode.uses]
    · intro n
      obtain ⟨hs, _, _⟩ := main n
      have : lookupGo (searchIter t tokens n).root tokens = some v := by
        rw [← lookupGo_stripUses, hs, lookupGo_stripUses, hlk]
      exact this
    · intro n q hq
      obtain ⟨_, _, hq'⟩ := main n
      rw [usesAt, usesAt]
      exact hq' q hq

/-- Witness for C4 (amended) at a concrete input. -/
theorem claim_C4_witness :
    ((insertD Trie.new [5] [1]).search [5]).1 = some [1] ∧
    ∃ p c, getNode (insertD Trie.new [5] [1]).root p = some c ∧ c.value = some [1] ∧
      (∀ n : Nat, usesAt (searchIter (insertD Trie.new [5] [1]) [5] n) p = some (c.uses + n)) ∧
      (∀ n : Nat, ((searchIter (insertD Trie.new [5] [1]) [5] n).search [5]).1 = some [1]) ∧
      (∀ n : Nat, ∀ q : List Dir, q ≠ p →
        usesAt (searchIter (insertD Trie.new [5] [1]) [5] n) q =
          usesAt (insertD Trie.new [5] [1]) q) :=
  ⟨by simp [insertD, Trie.insert, Trie.new, recursive_insert, TrieNode.new, freshSpine,
      Trie.search, lookupGo],
   claim_C4_amended _ [5] [1] (by
     simp [insertD, Trie.insert, Trie.new, recursive_insert, TrieNode.new, freshSpine,
       Trie.search, lookupGo])⟩

/-- C5: inserting a key that already has an associated value raises
`DuplicateKey` (the panic at trie.rs line 76) and `len()` is unchanged from
before the call (`size += 1` runs only after `recursive_insert` returns
normally). -/
theorem claim_C5 (t : Trie) (tokens : List Byte) (w v : Value)
    (hw : lookupGo t.root tokens = some w) :
    t.insert tokens v = .error .duplicateKey ∧ t.lenAfterInsert tokens v = t.len := by
  have hins : t.insert tokens v = .error .duplicateKey := by
    cases tokens with
    | nil => rw [lookupGo.eq_def] at hw; simp at hw
    | cons k rest =>
      cases hroot : t.root with
      | none =>
        rw [hroot] at hw
        rw [lookupGo.eq_def] at hw
        simp at hw
      | some r =>
        rw [hroot] at hw
        rw [Trie.insert, hroot]
        rw [ri_dup r (k :: rest) v w hw]
  exact ⟨hins, by rw [Trie.lenAfterInsert, hins]⟩

/-- Witness for C5 at a concrete input. -/
theorem claim_C5_witness :
    lookupGo (insertD Trie.new [5] [1]).root [5] = some [1] ∧
    ((insertD Trie.new [5] [1]).insert [5] [9] = .error .duplicateKey ∧
      (insertD Trie.new [5] [1]).lenAfterInsert [5] [9] = (insertD Trie.new [5] [1]).len) :=
  ⟨by simp [insertD, Trie.insert, Trie.new, recursive_insert, TrieNode.new, freshSpine,
      lookupGo],
   claim_C5 _ [5] [1] [9] (by
     simp [insertD, Trie.insert, Trie.new, recursive_insert, TrieNode.new, freshSpine,
       lookupGo])⟩

/-- C6: inserting with an empty token sequence raises `InvalidArgument` (the
failed assertion at trie.rs line 50) and `len()` is unchanged. -/
theorem claim_C6 (t : Trie) (v : Value) :
    t.insert [] v = .error .invalidArgument ∧ t.lenAfterInsert [] v = t.len := by
  have h : t.insert [] v = .error .invalidArgument := by rw [Trie.insert]
  exact ⟨h, by rw [Trie.lenAfterInsert, h]⟩

/-- C7: after inserting only key `k` into a fresh trie, `search` on any byte
sequence that is not byte-identical to `k` — longer, a strict prefix, or
divergent at any position — returns absent. -/
theorem claim_C7 (tokens : List Byte) (v : Value) (t' : Trie) (tokens' : List Byte)
    (hins : Trie.new.insert tokens v = .ok t') (hne : tokens' ≠ tokens) :
    (t'.search tokens').1 = none := by
  have hne0 : tokens ≠ [] := by
    intro h
    subst h
    rw [Trie.insert] at hins
    simp at hins
  obtain ⟨hroot, _⟩ := insert_new_root tokens v t' hins
  have : lookupGo t'.root tokens' = none := by
    rw [hroot]
    exact lookup_freshSpine_ne tokens v tokens' hne0 hne
  exact this

/-- Witness for C7 at a concrete input. -/
theorem claim_C7_witness :
    Trie.new.insert [5, 8] [1] = .ok (insertD Trie.new [5, 8] [1]) ∧
    ((insertD Trie.new [5, 8] [1]).search [5, 4]).1 = none :=
  ⟨by simp [insertD, Trie.insert, Trie.new, recursive_insert, TrieNode.new, freshMiddle,
      freshSpine],
   claim_C7 [5, 8] [1] _ [5, 4]
     (by simp [insertD, Trie.insert, Trie.new, recursive_insert, TrieNode.new, freshMiddle,
       freshSpine])
     (by decide)⟩

/-- C8: in every trie state reachable from `new()` by successful `insert`,
`search` and `longest_match` calls, the `size` field returned by `len()`
equals the number of cells whose value is present. -/
theorem claim_C8 (t : Trie) (h : Reachable t) : t.len = countValues t.root := by
  induction h with
  | new => simp [Trie.new, Trie.len, countValues]
  | insert t t' tokens v hr hok ih =>
    cases tokens with
    | nil =>
      rw [Trie.insert] at hok
      simp at hok
    | cons k rest =>
      rw [Trie.insert] at hok
      cases hroot : t.root with
      | none =>
        rw [hroot] at hok
        cases hri : recursive_insert (TrieNode.new k none) (k :: rest) v with
        | error e => rw [hri] at hok; simp at hok
        | ok root' =>
          rw [hri] at hok
          simp only [Except.ok.injEq] at hok
          subst hok
          have hcount := ri_count _ _ _ _ hri
          have h0 : countValues (some (TrieNode.new k none)) = 0 := by
            simp [TrieNode.new, countValues]
          rw [h0] at hcount
          rw [hroot] at ih
          simp only [Trie.len, countValues] at ih ⊢
          omega
      | some r =>
        rw [hroot] at hok
        cases hri : recursive_insert r (k :: rest) v with
        | error e => rw [hri] at hok; simp at hok
        | ok root' =>
          rw [hri] at hok
          simp only [Except.ok.injEq] at hok
          subst hok
          have hcount := ri_count _ _ _ _ hri
          rw [hroot] at ih
          simp only [Trie.len] at ih ⊢
          omega
  | search t tokens hr ih =>
    rw [Trie.search]
    simp only [Trie.len] at ih ⊢
    rw [countValues_searchPost]
    exact ih
  | longest t tokens hr ih =>
    rw [Trie.longestMatchFull]
    simp only [Trie.len] at ih ⊢
    rw [lmPost_eq]
    exact ih

/-- Witness for C8 at a concrete reachable state. -/
theorem claim_C8_witness :
    (insertD Trie.new [5] [1]).len = countValues (insertD Trie.new [5] [1]).root :=
  claim_C8 _ (Reachable.insert Trie.new _ [5] [1] Reachable.new
    (by simp [insertD, Trie.insert, Trie.new, recursive_insert, TrieNode.new, freshSpine]))

/-- C10: whenever the walk of `search` consumes all bytes of the input and
lands on a cell that holds no value (for example a strict prefix of an
inserted key), the call returns absent but still increments that landing
cell's `uses` counter by 1. -/
theorem claim_C10 (t : Trie) (tokens : List Byte) (p : List Dir) (c : TrieNode)
    (hwp : walkPath t.root tokens = some p) (hc : getNode t.root p = some c)
    (hcv : c.value = none) :
    (t.search tokens).1 = none ∧ usesAt (t.search tokens).2 p = some (c.uses + 1) := by
  obtain ⟨c', hc', hlk⟩ := walkPath_cell t.root tokens p hwp
  rw [hc] at hc'
  simp only [Option.some.injEq] at hc'
  subst hc'
  constructor
  · have hfst : (t.search tokens).1 = lookupGo t.root tokens := rfl
    rw [hfst, hlk, hcv]
  · have hroot : (t.search tokens).2.root = searchPost t.root tokens := rfl
    rw [usesAt, hroot, searchPost_spec, hwp]
    rw [getNode_bumpAt_self p t.root c hc]
    cases c with
    | mk cl cm cr cv ck cu => simp [TrieNode.bumpUses, TrieNode.uses]

/-- Witness for C10 at a concrete input (key `[5, 8]` inserted, probe `[5]`:
the walk lands on the valueless root cell). -/
theorem claim_C10_witness :
    ((insertD Trie.new [5, 8] [1]).search [5]).1 = none ∧
    usesAt ((insertD Trie.new [5, 8] [1]).search [5]).2 [] = some 1 := by
  have := claim_C10 (insertD Trie.new [5, 8] [1]) [5] []
    (.mk none (some (.mk none none (some (.mk none none none (some [1]) 8 0)) none 5 0))
      none none 5 0)
    (by simp [insertD, Trie.insert, Trie.new, recursive_insert, TrieNode.new, freshMiddle,
      freshSpine, walkPath.eq_def])
    (by simp [insertD, Trie.insert, Trie.new, recursive_insert, TrieNode.new, freshMiddle,
      freshSpine, getNode])
    rfl
  simpa [TrieNode.uses] using this

end TernaryTrie
